import Mathlib

/-!
Verification of the genetic-drift simulation (genetic_drift_simulation.py).

The program is embedded shallowly:

* a DNA sequence (a Python string over A/C/T/G) is a `List Char`;
* a population (a Python list of strings) is a `List (List Char)`;
* Python's float arithmetic on probabilities and averages is modelled
  with exact rationals `ℚ`;
* the random source (`random.random()` and `random.choice`) is modelled
  by oracles handed to each function: `u pos` is the uniform draw in
  `[0,1)` made for position `pos` (exactly one `random.random()` call is
  made per position, in input order), and `c pos : Fin 3` is the index
  into `['C','T','G']` that `random.choice` would return at that
  position when a mutation fires;
* a Python `IndexError` (out-of-range string access in
  `compare_sequences`) is modelled with `Except Unit`.
-/

namespace GeneticDrift

/-- Translation of `initialize_original_sequence`: builds a population of
`population_size_N` individual sequences, each the string of
`num_of_base_pairs_L` copies of the reference symbol A. -/
def init_original_sequence (population_size_N num_of_base_pairs_L : ℕ) :
    List (List Char) :=
  (List.range population_size_N).map
    (fun _ => (List.range num_of_base_pairs_L).map (fun _ => 'A'))

/-- The list `['C', 'T', 'G']` that `mutate` draws replacement nucleotides
from (`nucleotide_choices` in the source). -/
def nucleotide_choices : List Char := ['C', 'T', 'G']

/-- Translation of `mutate`: for every index of the input sequence, in
order, a uniform draw `u index` is taken; if `u index ≤ mutation_rate`
(the source's inclusive `likelihood <= mutation_rate` branch) the output
site is `nucleotide_choices` at the choice draw `c index`, otherwise
(`likelihood > mutation_rate`, the exhaustive elif) the original symbol
is copied.  The string built by repeated `+=` is the map over indexes. -/
def mutate (mutation_rate : ℚ) (generation_sequence : List Char)
    (u : ℕ → ℚ) (c : ℕ → Fin 3) : List Char :=
  (List.range generation_sequence.length).map (fun index =>
    if u index ≤ mutation_rate then nucleotide_choices.get (c index)
    else generation_sequence.getD index 'A')

/-- Translation of `reproduce`: applies `mutate` to every sequence of the
previous generation, in order.  `U index` / `C index` are the random
draws consumed by the `mutate` call on individual `index`. -/
def reproduce (mutation_rate : ℚ) (prev_generation : List (List Char))
    (U : ℕ → ℕ → ℚ) (C : ℕ → ℕ → Fin 3) : List (List Char) :=
  (List.range prev_generation.length).map (fun index =>
    mutate mutation_rate (prev_generation.getD index []) (U index) (C index))

/-- The count accumulated by the loop of `compare_sequences`: the number
of indexes `index < len(sequence1)` where the two strings differ. -/
def count_diffs (sequence1 sequence2 : List Char) : ℕ :=
  ((List.range sequence1.length).filter
    (fun index => sequence1.getD index 'A' ≠ sequence2.getD index 'A')).length

/-- Translation of `compare_sequences`: the loop runs `index` over
`range(len(sequence1))` and reads `sequence2[index]`; when
`len(sequence1) > len(sequence2)` that read raises `IndexError`,
modelled as `Except.error ()`.  Otherwise it returns the number of
differing positions among the first `len(sequence1)` indexes. -/
def compare_sequences (sequence1 sequence2 : List Char) : Except Unit ℕ :=
  if sequence1.length ≤ sequence2.length then
    Except.ok (count_diffs sequence1 sequence2)
  else
    Except.error ()

/-- Translation of the pair loop of `genetic_distance`: for `index` in
`range(len(generation))` and `index2` in `range(index+1, len(generation))`
(Python's `range(a, b)` is `List.range' a (b - a)`), the comparison of
members `index` and `index2` is appended. -/
def distances (generation : List (List Char)) : List (Except Unit ℕ) :=
  (List.range generation.length).flatMap (fun index =>
    (List.range' (index + 1) (generation.length - (index + 1))).map
      (fun index2 =>
        compare_sequences (generation.getD index []) (generation.getD index2 [])))

/-- Translation of the summation loop of `genetic_distance`; an
`IndexError` raised while building the pair list propagates. -/
def sum_of_distances : List (Except Unit ℕ) → Except Unit ℕ
  | [] => Except.ok 0
  | Except.error e :: _ => Except.error e
  | Except.ok v :: ds =>
    match sum_of_distances ds with
    | Except.ok s => Except.ok (v + s)
    | Except.error e => Except.error e

/-- Translation of `genetic_distance`: the summed pairwise distances
divided by `population_size_N` and then by `num_of_base_pairs_L`.  The
callers in `main` pass `N` (an int) before the split and the float
`N / 2` after it, so the divisor is taken as a rational. -/
def genetic_distance (generation : List (List Char))
    (population_size_N num_of_base_pairs_L : ℚ) : Except Unit ℚ :=
  match sum_of_distances (distances generation) with
  | Except.ok s => Except.ok (((s : ℚ) / population_size_N) / num_of_base_pairs_L)
  | Except.error e => Except.error e

/-- Translation of `split_populations`: every index of the input, in
order, goes to `population1` when `index < population_size_N / 2`
(Python float division, hence the rational comparison) and to
`population2` otherwise. -/
def split_populations (generation_sequence : List (List Char))
    (population_size_N : ℕ) : List (List Char) × List (List Char) :=
  ((List.range generation_sequence.length).filterMap (fun (index : ℕ) =>
     if (index : ℚ) < (population_size_N : ℚ) / 2 then
       some (generation_sequence.getD index []) else none),
   (List.range generation_sequence.length).filterMap (fun (index : ℕ) =>
     if (index : ℚ) < (population_size_N : ℚ) / 2 then
       none else some (generation_sequence.getD index [])))

/-- State of `main`'s single-population loop (both the pre-split loop of
the `generation_g < total_generations_G` branch and the whole loop of
the else branch): the current population, the generation counter, the
two accumulator lists, and how many `reproduce` calls have been made so
far (`call_count` indexes the random oracle). -/
structure SimState where
  new_generation_sequence : List (List Char)
  generation_number : ℕ
  generations : List ℕ
  avg_genetic_distances : List (Except Unit ℚ)
  call_count : ℕ

/-- One iteration of the single-population loop: record the generation
number and the average distance of the current population (computed with
divisor `Nq`, the population size `N`), then advance the population with
`reproduce` and increment the generation counter. -/
def pre_split_iter (mutation_rate Nq Lq : ℚ) (R : ℕ → ℕ → ℕ → ℚ)
    (C : ℕ → ℕ → ℕ → Fin 3) (s : SimState) : SimState :=
  { new_generation_sequence :=
      reproduce mutation_rate s.new_generation_sequence (R s.call_count) (C s.call_count),
    generation_number := s.generation_number + 1,
    generations := s.generations ++ [s.generation_number],
    avg_genetic_distances := s.avg_genetic_distances ++
      [genetic_distance s.new_generation_sequence Nq Lq],
    call_count := s.call_count + 1 }

/-- State of `main`'s post-split loop: as `SimState`, plus the two
sub-populations produced by `split_populations`. -/
structure SplitState where
  new_generation_sequence : List (List Char)
  population1 : List (List Char)
  population2 : List (List Char)
  generation_number : ℕ
  generations : List ℕ
  avg_genetic_distances : List (Except Unit ℚ)
  call_count : ℕ

/-- One iteration of the post-split loop, exactly as the source writes
it: record the generation number and `population1`'s distance (divisor
`Nq / 2`), assign `reproduce` of `population1` to
`new_generation_sequence`; record the same generation number and
`population2`'s distance, assign `reproduce` of `population2` to
`new_generation_sequence`; increment the generation counter.  The fields
`population1` and `population2` are never reassigned, mirroring the
source, where the results of both `reproduce` calls are stored in
`new_generation_sequence` and never read. -/
def post_split_iter (mutation_rate Nq Lq : ℚ) (R : ℕ → ℕ → ℕ → ℚ)
    (C : ℕ → ℕ → ℕ → Fin 3) (s : SplitState) : SplitState :=
  let s1 : SplitState :=
    { s with
      generations := s.generations ++ [s.generation_number],
      avg_genetic_distances := s.avg_genetic_distances ++
        [genetic_distance s.population1 (Nq / 2) Lq],
      new_generation_sequence :=
        reproduce mutation_rate s.population1 (R s.call_count) (C s.call_count),
      call_count := s.call_count + 1 }
  { s1 with
    generations := s1.generations ++ [s1.generation_number],
    avg_genetic_distances := s1.avg_genetic_distances ++
      [genetic_distance s1.population2 (Nq / 2) Lq],
    new_generation_sequence :=
      reproduce mutation_rate s1.population2 (R s1.call_count) (C s1.call_count),
    call_count := s1.call_count + 1,
    generation_number := s1.generation_number + 1 }

/-- The outcome of one simulation run: the two accumulator lists handed
to `print_output`, the two sub-populations (empty lists when no split
ever occurred, since the source never creates them in that branch), and
the final `new_generation_sequence`. -/
structure SimResult where
  generations : List ℕ
  avg_genetic_distances : List (Except Unit ℚ)
  population1 : List (List Char)
  population2 : List (List Char)
  new_generation_sequence : List (List Char)

/-- The state after `main`'s initialization block: the all-A initial
population, generation counter 1, empty accumulators, no `reproduce`
call made yet. -/
def initState (population_size_N num_of_base_pairs_L : ℕ) : SimState :=
  { new_generation_sequence :=
      init_original_sequence population_size_N num_of_base_pairs_L,
    generation_number := 1, generations := [],
    avg_genetic_distances := [], call_count := 0 }

/-- Translation of the simulation portion of `main`, after input
collection: the initial population is all-A; if `generation_g <
total_generations_G` the single-population loop runs `generation_g`
times, `split_populations` is invoked once, and the post-split loop runs
`total_generations_G - generation_g` times; otherwise the
single-population loop runs `total_generations_G` times and no split
occurs.  `R call` / `C call` are the random draws consumed by the
`call`-th `reproduce` call of the run. -/
def main_run (population_size_N num_of_base_pairs_L : ℕ) (mutation_rate : ℚ)
    (generation_g total_generations_G : ℕ)
    (R : ℕ → ℕ → ℕ → ℚ) (C : ℕ → ℕ → ℕ → Fin 3) : SimResult :=
  if generation_g < total_generations_G then
    let s := (pre_split_iter mutation_rate (population_size_N : ℚ)
      (num_of_base_pairs_L : ℚ) R C)^[generation_g]
      (initState population_size_N num_of_base_pairs_L)
    let pops := split_populations s.new_generation_sequence population_size_N
    let t0 : SplitState :=
      { new_generation_sequence := s.new_generation_sequence,
        population1 := pops.1, population2 := pops.2,
        generation_number := s.generation_number,
        generations := s.generations,
        avg_genetic_distances := s.avg_genetic_distances,
        call_count := s.call_count }
    let t := (post_split_iter mutation_rate (population_size_N : ℚ)
      (num_of_base_pairs_L : ℚ) R C)^[total_generations_G - generation_g] t0
    { generations := t.generations,
      avg_genetic_distances := t.avg_genetic_distances,
      population1 := t.population1, population2 := t.population2,
      new_generation_sequence := t.new_generation_sequence }
  else
    let s := (pre_split_iter mutation_rate (population_size_N : ℚ)
      (num_of_base_pairs_L : ℚ) R C)^[total_generations_G]
      (initState population_size_N num_of_base_pairs_L)
    { generations := s.generations,
      avg_genetic_distances := s.avg_genetic_distances,
      population1 := [], population2 := [],
      new_generation_sequence := s.new_generation_sequence }

/-! ### Basic lemmas about the index-map embedding of the loops -/

theorem getD_map_range {α : Type} (f : ℕ → α) (d : α) {n i : ℕ} (hi : i < n) :
    ((List.range n).map f).getD i d = f i := by
  rw [List.getD_eq_getElem _ _ (by simpa using hi)]
  simp

theorem map_getD_range {α : Type} (l : List α) (d : α) :
    (List.range l.length).map (fun i => l.getD i d) = l := by
  apply List.ext_getElem (by simp)
  intro i h1 h2
  simp only [List.getElem_map, List.getElem_range]
  exact List.getD_eq_getElem l d h2

theorem mutate_length (mutation_rate : ℚ) (s : List Char) (u : ℕ → ℚ)
    (c : ℕ → Fin 3) : (mutate mutation_rate s u c).length = s.length := by
  simp [mutate]

theorem mutate_getD (mutation_rate : ℚ) (s : List Char) (u : ℕ → ℚ)
    (c : ℕ → Fin 3) {i : ℕ} (hi : i < s.length) :
    (mutate mutation_rate s u c).getD i 'A' =
      if u i ≤ mutation_rate then nucleotide_choices.get (c i)
      else s.getD i 'A' :=
  getD_map_range _ _ hi

theorem reproduce_length (mutation_rate : ℚ) (pop : List (List Char))
    (U : ℕ → ℕ → ℚ) (C : ℕ → ℕ → Fin 3) :
    (reproduce mutation_rate pop U C).length = pop.length := by
  simp [reproduce]

theorem reproduce_getD (mutation_rate : ℚ) (pop : List (List Char))
    (U : ℕ → ℕ → ℚ) (C : ℕ → ℕ → Fin 3) {j : ℕ} (hj : j < pop.length) :
    (reproduce mutation_rate pop U C).getD j [] =
      mutate mutation_rate (pop.getD j []) (U j) (C j) :=
  getD_map_range _ _ hj

theorem mutate_zero_of_pos (s : List Char) (u : ℕ → ℚ) (c : ℕ → Fin 3)
    (hu : ∀ i, 0 < u i) : mutate 0 s u c = s := by
  unfold mutate
  rw [List.map_congr_left (g := fun i => s.getD i 'A')
    (fun i _ => by rw [if_neg (not_le.mpr (hu i))])]
  exact map_getD_range s 'A'

/-! ### C6: reproduction at mutation rate 0 -/

/-- Claim C6 (counterexample): it is not true that every stream of draws in
`[0,1)` leaves the population unchanged at mutation rate 0: the draw
`u = 0` lies in `[0,1)` and satisfies the source's inclusive boundary
`likelihood <= mutation_rate`, so the site mutates. -/
theorem reproduce_rate_zero_counterexample :
    ¬ (∀ (pop : List (List Char)) (U : ℕ → ℕ → ℚ) (C : ℕ → ℕ → Fin 3),
        (∀ k i, 0 ≤ U k i ∧ U k i < 1) → reproduce 0 pop U C = pop) := by
  intro h
  have h0 := h [['A']] (fun _ _ => 0) (fun _ _ => 0)
    (fun _ _ => by norm_num)
  exact absurd h0 (by decide)

/-- Claim C6 (amended): for every population and every stream of strictly
positive draws, `reproduce` at mutation rate 0 returns the population
unchanged; only a draw of exactly 0 (the inclusive boundary) can
mutate a site at rate 0. -/
theorem reproduce_rate_zero_spec (pop : List (List Char)) (U : ℕ → ℕ → ℚ)
    (C : ℕ → ℕ → Fin 3) (hU : ∀ k i, 0 < U k i) :
    reproduce 0 pop U C = pop := by
  unfold reproduce
  rw [List.map_congr_left (g := fun j => pop.getD j [])
    (fun j _ => mutate_zero_of_pos _ _ _ (hU j))]
  exact map_getD_range pop []

/-- Witness for C6: a concrete rate-0 reproduction with positive draws
is the identity. -/
theorem reproduce_rate_zero_spec_witness :
    reproduce 0 [['A', 'C'], ['G']] (fun _ _ => 1 / 2) (fun _ _ => 0) =
      [['A', 'C'], ['G']] :=
  reproduce_rate_zero_spec _ _ _ (fun _ _ => by norm_num)

/-! ### C5: reproduction at mutation rate 1 -/

/-- Claim C5 (counterexample): at mutation rate 1 an output sequence need not
differ from its parent at every position: `random.choice(['C','T','G'])`
may redraw the parent's own symbol when that symbol is not A.  Here the
parent site is C and the choice draw returns C again. -/
theorem reproduce_rate_one_counterexample :
    ¬ (∀ (pop : List (List Char)) (U : ℕ → ℕ → ℚ) (C : ℕ → ℕ → Fin 3),
        (∀ k i, 0 ≤ U k i ∧ U k i < 1) →
        ∀ j, j < pop.length → ∀ i, i < (pop.getD j []).length →
          ((reproduce 1 pop U C).getD j []).getD i 'A' ≠
            (pop.getD j []).getD i 'A') := by
  intro h
  exact h [['C']] (fun _ _ => 0) (fun _ _ => 0) (fun _ _ => by norm_num)
    0 (by decide) 0 (by decide) (by decide)

/-- Claim C5 (amended): at mutation rate 1 every draw in `[0,1)` fires the
mutation branch, so every output site is drawn from
`nucleotide_choices = ['C','T','G']`; hence the output differs from the
parent at every position whose parent symbol is A (in particular
everywhere on the all-A initial population), though it may coincide
with a parent symbol already in C, T, G. -/
theorem reproduce_rate_one_spec (pop : List (List Char)) (U : ℕ → ℕ → ℚ)
    (C : ℕ → ℕ → Fin 3) (hU : ∀ k i, U k i < 1) :
    (reproduce 1 pop U C).length = pop.length ∧
    ∀ j, j < pop.length →
      ((reproduce 1 pop U C).getD j []).length = (pop.getD j []).length ∧
      ∀ i, i < (pop.getD j []).length →
        ((reproduce 1 pop U C).getD j []).getD i 'A' ∈ nucleotide_choices ∧
        ((pop.getD j []).getD i 'A' = 'A' →
          ((reproduce 1 pop U C).getD j []).getD i 'A' ≠
            (pop.getD j []).getD i 'A') := by
  refine ⟨reproduce_length 1 pop U C, fun j hj => ?_⟩
  rw [reproduce_getD 1 pop U C hj]
  refine ⟨mutate_length _ _ _ _, fun i hi => ?_⟩
  rw [mutate_getD _ _ _ _ hi, if_pos (le_of_lt (hU j i))]
  have hk : ∀ k : Fin 3, nucleotide_choices.get k = 'C' ∨
      nucleotide_choices.get k = 'T' ∨ nucleotide_choices.get k = 'G' := by
    decide
  refine ⟨?_, fun hA => ?_⟩
  · rcases hk (C j i) with h | h | h <;> rw [h] <;> decide
  · rw [hA]
    rcases hk (C j i) with h | h | h <;> rw [h] <;> decide

/-- Witness for C5: with rate 1 and all parent sites A, the concrete
output site lies in `['C','T','G']` and differs from the parent. -/
theorem reproduce_rate_one_spec_witness :
    ((reproduce 1 [['A']] (fun _ _ => 0) (fun _ _ => 0)).getD 0 []).getD 0 'A'
        ∈ nucleotide_choices ∧
    ((reproduce 1 [['A']] (fun _ _ => 0) (fun _ _ => 0)).getD 0 []).getD 0 'A'
        ≠ ([['A']].getD 0 []).getD 0 'A' := by
  obtain ⟨-, h⟩ := reproduce_rate_one_spec [['A']] (fun _ _ => 0)
    (fun _ _ => 0) (fun _ _ => by norm_num)
  obtain ⟨-, h0⟩ := h 0 (by decide)
  obtain ⟨hmem, hne⟩ := h0 0 (by decide)
  exact ⟨hmem, hne (by decide)⟩

/-! ### C10: compare_sequences on unequal lengths -/

theorem count_diffs_cons (a b : Char) (t1 t2 : List Char) :
    count_diffs (a :: t1) (b :: t2) =
      (if a ≠ b then 1 else 0) + count_diffs t1 t2 := by
  unfold count_diffs
  rw [List.length_cons, List.range_succ_eq_map, List.filter_cons, List.filter_map]
  have hcomp : ((fun index => decide ((a :: t1).getD index 'A' ≠
        (b :: t2).getD index 'A')) ∘ Nat.succ) =
      fun index => decide (t1.getD index 'A' ≠ t2.getD index 'A') := by
    funext i
    simp
  rw [hcomp]
  by_cases hab : a = b <;> simp [hab, Nat.add_comm]

theorem count_diffs_eq_countP_zip :
    ∀ (s1 s2 : List Char), s1.length ≤ s2.length →
      count_diffs s1 s2 = (s1.zip s2).countP (fun p => decide (p.1 ≠ p.2))
  | [], _, _ => by simp [count_diffs]
  | _ :: _, [], h => by simp at h
  | a :: t1, b :: t2, h => by
    rw [count_diffs_cons, List.zip_cons_cons, List.countP_cons,
      count_diffs_eq_countP_zip t1 t2 (by simpa using h)]
    by_cases hab : a = b <;> simp [hab, Nat.add_comm]

/-- Claim C10: when the first sequence is no longer than the second,
`compare_sequences` succeeds and returns the number of positions
`i < len(sequence1)` where the sequences differ — the positions of the
second sequence beyond the first's length are ignored (the zip
truncates to the first sequence's length).  When the first sequence is
strictly longer, the out-of-range read is reached and the call fails;
in particular the function is not symmetric on unequal lengths. -/
theorem compare_sequences_spec :
    (∀ sequence1 sequence2 : List Char,
        sequence1.length ≤ sequence2.length →
        compare_sequences sequence1 sequence2 =
          Except.ok ((sequence1.zip sequence2).countP
            (fun p => decide (p.1 ≠ p.2)))) ∧
    compare_sequences ['A'] [] = Except.error () ∧
    compare_sequences [] ['A'] = Except.ok 0 := by
  refine ⟨fun s1 s2 h => ?_, rfl, rfl⟩
  rw [compare_sequences, if_pos h, count_diffs_eq_countP_zip s1 s2 h]

/-- Witness for C10: a concrete comparison of a length-2 sequence
against a length-3 sequence succeeds, ignoring the trailing symbol. -/
theorem compare_sequences_spec_witness :
    compare_sequences ['A', 'C'] ['A', 'G', 'T'] =
      Except.ok ((['A', 'C'].zip ['A', 'G', 'T']).countP
        (fun p => decide (p.1 ≠ p.2))) :=
  compare_sequences_spec.1 ['A', 'C'] ['A', 'G', 'T'] (by decide)

/-! ### C4: the population split -/

theorem split_cond_iff (i N : ℕ) :
    ((i : ℚ) < (N : ℚ) / 2) ↔ i < (N + 1) / 2 := by
  rw [lt_div_iff₀ (by norm_num : (0 : ℚ) < 2)]
  have : ((i : ℚ) * 2 < (N : ℚ)) ↔ i * 2 < N := by
    exact_mod_cast Iff.rfl
  rw [this]
  omega

theorem filterMap_range_if_lt {α : Type} (l : List α) (d : α) (k : ℕ) :
    (List.range l.length).filterMap
      (fun i => if i < k then some (l.getD i d) else none) = l.take k := by
  induction l generalizing k with
  | nil => simp
  | cons a t ih =>
    cases k with
    | zero => simp
    | succ k' =>
      rw [List.length_cons, List.range_succ_eq_map, List.filterMap_cons,
        List.filterMap_map]
      have hfun : ((fun i => if i < k' + 1 then some ((a :: t).getD i d)
            else none) ∘ Nat.succ) =
          fun i => if i < k' then some (t.getD i d) else none := by
        funext i
        simp [Nat.succ_lt_succ_iff]
      rw [hfun, ih k']
      simp

theorem filterMap_range_if_ge {α : Type} (l : List α) (d : α) (k : ℕ) :
    (List.range l.length).filterMap
      (fun i => if i < k then none else some (l.getD i d)) = l.drop k := by
  induction l generalizing k with
  | nil => simp
  | cons a t ih =>
    cases k with
    | zero =>
      have hfun : (fun i => if i < 0 then none else some ((a :: t).getD i d)) =
          some ∘ (fun i => (a :: t).getD i d) := by
        funext i
        simp
      rw [hfun, List.filterMap_eq_map, map_getD_range, List.drop_zero]
    | succ k' =>
      rw [List.length_cons, List.range_succ_eq_map, List.filterMap_cons,
        List.filterMap_map]
      have hfun : ((fun i => if i < k' + 1 then none
            else some ((a :: t).getD i d)) ∘ Nat.succ) =
          fun i => if i < k' then none else some (t.getD i d) := by
        funext i
        simp [Nat.succ_lt_succ_iff]
      rw [hfun, ih k']
      simp

/-- The split, with any size argument `N`, keeps the first
`⌈N/2⌉ = (N+1)/2` members (the indexes with `index < N / 2` under float
division) and drops the rest. -/
theorem split_populations_eq (pop : List (List Char)) (N : ℕ) :
    split_populations pop N =
      (pop.take ((N + 1) / 2), pop.drop ((N + 1) / 2)) := by
  unfold split_populations
  have h1 : (fun (index : ℕ) => if (index : ℚ) < (N : ℚ) / 2 then
        some (pop.getD index []) else none) =
      fun index => if index < (N + 1) / 2 then some (pop.getD index [])
        else none := by
    funext i
    exact if_congr (split_cond_iff i N) rfl rfl
  have h2 : (fun (index : ℕ) => if (index : ℚ) < (N : ℚ) / 2 then
        none else some (pop.getD index [])) =
      fun index => if index < (N + 1) / 2 then none
        else some (pop.getD index []) := by
    funext i
    exact if_congr (split_cond_iff i N) rfl rfl
  rw [h1, h2, filterMap_range_if_lt, filterMap_range_if_ge]

/-- Claim C4: called (as `main` calls it) with `N` equal to the population's
size, the split is positional and deterministic: `population1` is
exactly the first `⌈N/2⌉ = (N+1)/2` members, `population2` the
remaining `⌊N/2⌋`, and concatenating them restores the population.
For `N = 10` the sizes are 5 and 5; for `N = 7` they are 4 and 3. -/
theorem split_populations_spec (pop : List (List Char)) :
    (split_populations pop pop.length).1 = pop.take ((pop.length + 1) / 2) ∧
    (split_populations pop pop.length).2 = pop.drop ((pop.length + 1) / 2) ∧
    (split_populations pop pop.length).1.length = (pop.length + 1) / 2 ∧
    (split_populations pop pop.length).2.length = pop.length / 2 ∧
    (split_populations pop pop.length).1 ++ (split_populations pop pop.length).2
      = pop := by
  rw [split_populations_eq pop pop.length]
  refine ⟨rfl, rfl, ?_, ?_, List.take_append_drop _ _⟩
  · rw [List.length_take]
    omega
  · rw [List.length_drop]
    omega

/-! ### C3: per-site behaviour of mutate -/

theorem get_nucleotide_mem :
    ∀ k : Fin 3, nucleotide_choices.get k ∈ nucleotide_choices := by
  decide

/-- Claim C3: `mutate` decides every position of the input independently and
in input order: the output has one site per input site; at a position
whose uniform draw satisfies `u i ≤ mutationRate` (the boundary
`u i = mutationRate` included) the output symbol is the one selected by
the choice draw from `nucleotide_choices = ['C','T','G']`; at a
position with `u i > mutationRate` the original symbol is copied; and
the output at a position depends only on that position's draws. -/
theorem mutate_per_site_spec (mutation_rate : ℚ) (s : List Char)
    (u : ℕ → ℚ) (c : ℕ → Fin 3) :
    (mutate mutation_rate s u c).length = s.length ∧
    ∀ i, i < s.length →
      (u i ≤ mutation_rate →
        (mutate mutation_rate s u c).getD i 'A' = nucleotide_choices.get (c i) ∧
        (mutate mutation_rate s u c).getD i 'A' ∈ nucleotide_choices) ∧
      (mutation_rate < u i →
        (mutate mutation_rate s u c).getD i 'A' = s.getD i 'A') ∧
      (∀ (u' : ℕ → ℚ) (c' : ℕ → Fin 3), u' i = u i → c' i = c i →
        (mutate mutation_rate s u' c').getD i 'A' =
          (mutate mutation_rate s u c).getD i 'A') := by
  refine ⟨mutate_length _ _ _ _, fun i hi => ⟨fun hle => ?_, fun hgt => ?_,
    fun u' c' hu hc => ?_⟩⟩
  · rw [mutate_getD _ _ _ _ hi, if_pos hle]
    exact ⟨rfl, get_nucleotide_mem (c i)⟩
  · rw [mutate_getD _ _ _ _ hi, if_neg (not_le.mpr hgt)]
  · rw [mutate_getD _ _ _ _ hi, mutate_getD _ _ _ _ hi, hu, hc]

/-- Witness for C3: at rate 1/2, a position whose draw equals the rate
exactly mutates (to the choice draw's symbol) while a position with a
larger draw keeps its symbol. -/
theorem mutate_per_site_spec_witness :
    (mutate (1 / 2) ['A', 'A'] (fun i => if i = 0 then 1 / 2 else 3 / 4)
        (fun _ => 1)).getD 0 'A' = nucleotide_choices.get (1 : Fin 3) ∧
    (mutate (1 / 2) ['A', 'A'] (fun i => if i = 0 then 1 / 2 else 3 / 4)
        (fun _ => 1)).getD 1 'A' = (['A', 'A'] : List Char).getD 1 'A' := by
  obtain ⟨-, h⟩ := mutate_per_site_spec (1 / 2) ['A', 'A']
    (fun i => if i = 0 then 1 / 2 else 3 / 4) (fun _ => 1)
  exact ⟨((h 0 (by decide)).1 (by norm_num)).1, (h 1 (by decide)).2.1 (by norm_num)⟩

/-! ### C2: the genetic-distance average -/

/-- Hamming distance as the specification describes it: the number of
differing positions of two sequences, read off their zip.  This is the
specification-side form compared against `count_diffs`. -/
def hamming (a b : List Char) : ℕ :=
  (a.zip b).countP (fun p => decide (p.1 ≠ p.2))

/-- Specification-side total: the sum of `hamming` over all unordered
pairs of distinct member indexes `i < j` of the population. -/
def spec_pair_sum (pop : List (List Char)) : ℕ :=
  ∑ i ∈ Finset.range pop.length, ∑ j ∈ Finset.Ioo i pop.length,
    hamming (pop.getD i []) (pop.getD j [])

theorem getD_mem {α : Type} (l : List α) (d : α) {i : ℕ} (hi : i < l.length) :
    l.getD i d ∈ l := by
  rw [List.getD_eq_getElem _ _ hi]
  exact List.getElem_mem hi

theorem sum_of_distances_append {l1 l2 : List (Except Unit ℕ)} {a b : ℕ}
    (h1 : sum_of_distances l1 = Except.ok a)
    (h2 : sum_of_distances l2 = Except.ok b) :
    sum_of_distances (l1 ++ l2) = Except.ok (a + b) := by
  induction l1 generalizing a with
  | nil =>
    rw [sum_of_distances] at h1
    cases h1
    simpa using h2
  | cons d ds ih =>
    cases d with
    | error e => rw [sum_of_distances] at h1; cases h1
    | ok v =>
      rw [sum_of_distances] at h1
      cases hds : sum_of_distances ds with
      | error e => rw [hds] at h1; cases h1
      | ok s =>
        rw [hds] at h1
        cases h1
        rw [List.cons_append, sum_of_distances, ih hds, Nat.add_assoc]

theorem sum_of_distances_map_ok (F : ℕ → Except Unit ℕ) (g : ℕ → ℕ) :
    ∀ (l : List ℕ), (∀ j ∈ l, F j = Except.ok (g j)) →
      sum_of_distances (l.map F) = Except.ok ((l.map g).sum)
  | [], _ => rfl
  | j :: js, h => by
    rw [List.map_cons, h j (List.mem_cons_self j js), sum_of_distances,
      sum_of_distances_map_ok F g js (fun x hx => h x (List.mem_cons_of_mem j hx))]
    simp

theorem sum_of_distances_flatMap (n : ℕ) (F : ℕ → List (Except Unit ℕ))
    (f : ℕ → ℕ) (h : ∀ i, i < n → sum_of_distances (F i) = Except.ok (f i)) :
    sum_of_distances ((List.range n).flatMap F) =
      Except.ok (∑ i ∈ Finset.range n, f i) := by
  induction n with
  | zero => rfl
  | succ m ih =>
    rw [List.range_succ, List.flatMap_append, Finset.sum_range_succ]
    refine sum_of_distances_append (ih (fun i hi => h i (Nat.lt_succ_of_lt hi))) ?_
    have : [m].flatMap F = F m := by simp
    rw [this]
    exact h m (Nat.lt_succ_self m)

theorem sum_map_range' (g : ℕ → ℕ) :
    ∀ (n s : ℕ), ((List.range' s n).map g).sum = ∑ j ∈ Finset.range n, g (s + j)
  | 0, s => rfl
  | n + 1, s => by
    rw [List.range'_succ, List.map_cons, List.sum_cons,
      Finset.sum_range_succ' (fun j => g (s + j)) n, sum_map_range' g n (s + 1)]
    calc g s + ∑ j ∈ Finset.range n, g (s + 1 + j)
        = g s + ∑ j ∈ Finset.range n, g (s + (j + 1)) := by
          exact congrArg _ (Finset.sum_congr rfl (fun j _ => by
            rw [show s + 1 + j = s + (j + 1) by omega]))
      _ = ∑ j ∈ Finset.range n, g (s + (j + 1)) + g (s + 0) := by
          rw [Nat.add_zero, Nat.add_comm]

theorem sum_map_range_finset (g : ℕ → ℕ) (n : ℕ) :
    ((List.range n).map g).sum = ∑ i ∈ Finset.range n, g i := by
  induction n with
  | zero => rfl
  | succ m ih =>
    rw [List.range_succ, List.map_append, List.sum_append, Finset.sum_range_succ, ih]
    simp

theorem sum_of_distances_distances (pop : List (List Char)) (L : ℕ)
    (hlen : ∀ s ∈ pop, s.length = L) :
    sum_of_distances (distances pop) = Except.ok (spec_pair_sum pop) := by
  unfold distances spec_pair_sum
  apply sum_of_distances_flatMap
  intro i hi
  have hok : ∀ j ∈ List.range' (i + 1) (pop.length - (i + 1)),
      compare_sequences (pop.getD i []) (pop.getD j []) =
        Except.ok (hamming (pop.getD i []) (pop.getD j [])) := by
    intro j hj
    have hjlt : j < pop.length := by
      rcases List.mem_range'_1.mp hj with ⟨h1, h2⟩
      omega
    have hiL : (pop.getD i []).length = L := hlen _ (getD_mem pop [] hi)
    have hjL : (pop.getD j []).length = L := hlen _ (getD_mem pop [] hjlt)
    rw [compare_sequences, if_pos (by rw [hiL, hjL]),
      count_diffs_eq_countP_zip _ _ (by rw [hiL, hjL])]
    rfl
  rw [sum_of_distances_map_ok _ (fun j => hamming (pop.getD i []) (pop.getD j []))
    _ hok]
  refine congrArg Except.ok ?_
  rw [sum_map_range']
  rw [← Nat.Ico_succ_left, Finset.sum_Ico_eq_sum_range]

theorem distances_length (pop : List (List Char)) :
    (distances pop).length = pop.length.choose 2 := by
  unfold distances
  rw [List.length_flatMap]
  have hmap : List.map (List.length ∘ fun index =>
        (List.range' (index + 1) (pop.length - (index + 1))).map
          (fun index2 => compare_sequences (pop.getD index []) (pop.getD index2 [])))
        (List.range pop.length) =
      (List.range pop.length).map (fun i => pop.length - (i + 1)) := by
    apply List.map_congr_left
    intro i _
    simp [List.length_range']
  rw [hmap, sum_map_range_finset, Nat.choose_two_right, ← Finset.sum_range_id,
    ← Finset.sum_range_reflect (fun j => j) pop.length]
  exact Finset.sum_congr rfl (fun i _ => by omega)

/-- On a population whose sequences all have length `L`, the distance
computation never hits the out-of-range branch and returns the
specification's double-normalized average, for any divisors. -/
theorem genetic_distance_ok (pop : List (List Char)) (L : ℕ)
    (hlen : ∀ s ∈ pop, s.length = L) (q r : ℚ) :
    genetic_distance pop q r =
      Except.ok (((spec_pair_sum pop : ℚ) / q) / r) := by
  unfold genetic_distance
  rw [sum_of_distances_distances pop L hlen]

/-- Claim C2: on a population of size `n ≥ 1` whose sequences all have length
`L ≥ 1`, the pair list has exactly `C(n,2)` entries (one comparison per
unordered pair of distinct members); `genetic_distance` called, as
`main` calls it, with the population's size as divisor returns the sum
of pairwise distances divided by the population size and then by `L`;
and for a population of size 1 the result is exactly 0, with no
division by the (zero) number of pairs. -/
theorem genetic_distance_spec (pop : List (List Char)) (L : ℕ)
    (_hn : 1 ≤ pop.length) (_hL : 1 ≤ L) (hlen : ∀ s ∈ pop, s.length = L) :
    (distances pop).length = pop.length.choose 2 ∧
    genetic_distance pop (pop.length : ℚ) (L : ℚ) =
      Except.ok (((spec_pair_sum pop : ℚ) / (pop.length : ℚ)) / (L : ℚ)) ∧
    (pop.length = 1 →
      genetic_distance pop (pop.length : ℚ) (L : ℚ) = Except.ok 0) := by
  refine ⟨distances_length pop, genetic_distance_ok pop L hlen _ _, fun h1 => ?_⟩
  rw [genetic_distance_ok pop L hlen _ _]
  have hz : spec_pair_sum pop = 0 := by
    unfold spec_pair_sum
    rw [h1, Finset.sum_range_one]
    have he : Finset.Ioo 0 1 = (∅ : Finset ℕ) := by decide
    rw [he, Finset.sum_empty]
  rw [hz]
  norm_num

/-- Witness for C2: the metric on a concrete population of three
length-2 sequences. -/
theorem genetic_distance_spec_witness :
    (distances [['A', 'C'], ['A', 'G'], ['C', 'C']]).length =
      ([['A', 'C'], ['A', 'G'], ['C', 'C']] : List (List Char)).length.choose 2 ∧
    genetic_distance [['A', 'C'], ['A', 'G'], ['C', 'C']]
        (([['A', 'C'], ['A', 'G'], ['C', 'C']] : List (List Char)).length : ℚ)
        ((2 : ℕ) : ℚ) =
      Except.ok (((spec_pair_sum [['A', 'C'], ['A', 'G'], ['C', 'C']] : ℚ) /
        (([['A', 'C'], ['A', 'G'], ['C', 'C']] : List (List Char)).length : ℚ)) /
        ((2 : ℕ) : ℚ)) ∧
    (([['A', 'C'], ['A', 'G'], ['C', 'C']] : List (List Char)).length = 1 →
      genetic_distance [['A', 'C'], ['A', 'G'], ['C', 'C']]
        (([['A', 'C'], ['A', 'G'], ['C', 'C']] : List (List Char)).length : ℚ)
        ((2 : ℕ) : ℚ) = Except.ok 0) :=
  genetic_distance_spec [['A', 'C'], ['A', 'G'], ['C', 'C']] 2
    (by decide) (by decide) (by decide)

/-! ### C8: the fixed-length invariant of every reachable population -/

/-- The populations reachable in a run with initial size `N` and
sequence length `L`: the all-A initial population, any `reproduce` of a
reachable population (for any mutation rate and any draws), and either
half of a `split_populations` of a reachable population (`main` always
passes the initial size `N` as the splitter's size argument). -/
inductive ReachablePop (N L : ℕ) : List (List Char) → Prop where
  | init : ReachablePop N L (init_original_sequence N L)
  | step (mutation_rate : ℚ) (U : ℕ → ℕ → ℚ) (C : ℕ → ℕ → Fin 3)
      (pop : List (List Char)) : ReachablePop N L pop →
      ReachablePop N L (reproduce mutation_rate pop U C)
  | split_left (pop : List (List Char)) : ReachablePop N L pop →
      ReachablePop N L (split_populations pop N).1
  | split_right (pop : List (List Char)) : ReachablePop N L pop →
      ReachablePop N L (split_populations pop N).2

theorem init_original_sequence_lengths (N L : ℕ) :
    ∀ s ∈ init_original_sequence N L, s.length = L := by
  intro s hs
  rw [init_original_sequence] at hs
  obtain ⟨i, _, rfl⟩ := List.mem_map.mp hs
  simp

theorem reproduce_lengths (mutation_rate : ℚ) (pop : List (List Char))
    (U : ℕ → ℕ → ℚ) (C : ℕ → ℕ → Fin 3) (L : ℕ)
    (h : ∀ s ∈ pop, s.length = L) :
    ∀ s ∈ reproduce mutation_rate pop U C, s.length = L := by
  intro s hs
  rw [reproduce] at hs
  obtain ⟨i, hi, rfl⟩ := List.mem_map.mp hs
  rw [mutate_length]
  exact h _ (getD_mem pop [] (List.mem_range.mp hi))

theorem distances_all_ok (pop : List (List Char)) (L : ℕ)
    (hlen : ∀ s ∈ pop, s.length = L) :
    ∀ d ∈ distances pop, ∃ k, d = Except.ok k := by
  intro d hd
  rw [distances] at hd
  obtain ⟨i, hi, hd2⟩ := List.mem_flatMap.mp hd
  obtain ⟨j, hj, rfl⟩ := List.mem_map.mp hd2
  have hjlt : j < pop.length := by
    rcases List.mem_range'_1.mp hj with ⟨h1, h2⟩
    omega
  have hiL : (pop.getD i []).length = L :=
    hlen _ (getD_mem pop [] (List.mem_range.mp hi))
  have hjL : (pop.getD j []).length = L := hlen _ (getD_mem pop [] hjlt)
  exact ⟨_, by rw [compare_sequences, if_pos (by rw [hiL, hjL])]⟩

theorem reachable_lengths {N L : ℕ} {pop : List (List Char)}
    (h : ReachablePop N L pop) : ∀ s ∈ pop, s.length = L := by
  induction h with
  | init => exact init_original_sequence_lengths N L
  | step mutation_rate U C pop _ ih => exact reproduce_lengths _ _ _ _ _ ih
  | split_left pop _ ih =>
    rw [split_populations_eq]
    exact fun s hs => ih s (List.take_subset _ _ hs)
  | split_right pop _ ih =>
    rw [split_populations_eq]
    exact fun s hs => ih s (List.drop_subset _ _ hs)

/-- Claim C8: in every reachable population of a run (the initial one, every
`reproduce` image, both halves of the split) all sequences have the
initialization length `L`; consequently every pairwise comparison the
distance computation performs succeeds (the length-mismatch failure of
`compare_sequences` is unreachable), and `genetic_distance` always
returns a value, whatever divisors `main` passes it. -/
theorem reachable_length_invariant (N L : ℕ) (pop : List (List Char))
    (h : ReachablePop N L pop) :
    (∀ s ∈ pop, s.length = L) ∧
    (∀ d ∈ distances pop, ∃ k, d = Except.ok k) ∧
    (∀ q r : ℚ, ∃ v, genetic_distance pop q r = Except.ok v) :=
  ⟨reachable_lengths h, distances_all_ok pop L (reachable_lengths h),
    fun q r => ⟨_, genetic_distance_ok pop L (reachable_lengths h) q r⟩⟩

/-- Witness for C8: the invariant holds at a run's initial population
of two length-3 sequences. -/
theorem reachable_length_invariant_witness :
    (∀ s ∈ init_original_sequence 2 3, s.length = 3) ∧
    (∀ d ∈ distances (init_original_sequence 2 3), ∃ k, d = Except.ok k) ∧
    (∀ q r : ℚ, ∃ v, genetic_distance (init_original_sequence 2 3) q r =
      Except.ok v) :=
  reachable_length_invariant 2 3 (init_original_sequence 2 3) ReachablePop.init

/-! ### Characterizing the two loops of main -/

theorem pre_split_iterate (mutation_rate Nq Lq : ℚ) (R : ℕ → ℕ → ℕ → ℚ)
    (C : ℕ → ℕ → ℕ → Fin 3) (s : SimState) :
    ∀ n : ℕ,
      ((pre_split_iter mutation_rate Nq Lq R C)^[n] s).generation_number =
        s.generation_number + n ∧
      ((pre_split_iter mutation_rate Nq Lq R C)^[n] s).generations =
        s.generations ++ (List.range n).map (fun j => s.generation_number + j) ∧
      ((pre_split_iter mutation_rate Nq Lq R C)^[n] s).avg_genetic_distances.length =
        s.avg_genetic_distances.length + n
  | 0 => by simp
  | n + 1 => by
    obtain ⟨h1, h2, h3⟩ := pre_split_iterate mutation_rate Nq Lq R C s n
    rw [Function.iterate_succ_apply']
    refine ⟨?_, ?_, ?_⟩
    · simp only [pre_split_iter, h1]
      omega
    · simp only [pre_split_iter, h1, h2, List.range_succ, List.map_append,
        List.append_assoc]
      simp
    · simp only [pre_split_iter, List.length_append, h3, List.length_cons,
        List.length_nil]
      omega

theorem post_split_iterate (mutation_rate Nq Lq : ℚ) (R : ℕ → ℕ → ℕ → ℚ)
    (C : ℕ → ℕ → ℕ → Fin 3) (s : SplitState) :
    ∀ n : ℕ,
      ((post_split_iter mutation_rate Nq Lq R C)^[n] s).population1 =
        s.population1 ∧
      ((post_split_iter mutation_rate Nq Lq R C)^[n] s).population2 =
        s.population2 ∧
      ((post_split_iter mutation_rate Nq Lq R C)^[n] s).generation_number =
        s.generation_number + n ∧
      ((post_split_iter mutation_rate Nq Lq R C)^[n] s).generations =
        s.generations ++ (List.range n).flatMap
          (fun j => [s.generation_number + j, s.generation_number + j]) ∧
      ((post_split_iter mutation_rate Nq Lq R C)^[n] s).avg_genetic_distances =
        s.avg_genetic_distances ++ (List.range n).flatMap
          (fun _ => [genetic_distance s.population1 (Nq / 2) Lq,
            genetic_distance s.population2 (Nq / 2) Lq])
  | 0 => by simp
  | n + 1 => by
    obtain ⟨h1, h2, h3, h4, h5⟩ := post_split_iterate mutation_rate Nq Lq R C s n
    rw [Function.iterate_succ_apply']
    refine ⟨?_, ?_, ?_, ?_, ?_⟩
    · simp only [post_split_iter, h1]
    · simp only [post_split_iter, h2]
    · simp only [post_split_iter, h3]
      omega
    · simp only [post_split_iter, h1, h2, h3, h4, List.range_succ,
        List.flatMap_append, List.append_assoc]
      simp
    · simp only [post_split_iter, h1, h2, h3, h5, List.range_succ,
        List.flatMap_append, List.append_assoc]
      simp

/-! ### C1: the post-split loop never advances the two lineages -/

/-- A concrete random source: every uniform draw is 0 (so at any
positive mutation rate every site mutates). -/
def u_const_zero : ℕ → ℕ → ℕ → ℚ := fun _ _ _ => 0

/-- A concrete random source for the replacement choices: the
`call`-th `reproduce` call picks nucleotide `call % 3` everywhere. -/
def c_cycle : ℕ → ℕ → ℕ → Fin 3 :=
  fun call _ _ => ⟨call % 3, Nat.mod_lt call (by norm_num)⟩

/-- Claim C1 fails on the code: one iteration of the post-split loop leaves
both `population1` and `population2` unchanged — the `reproduce`
results are assigned to `new_generation_sequence` and never read — so
in the concrete run N=2, L=1, mutation rate 1, g=1, G=3 the first
lineage is still the split-time population `[['C']]` at the end, even
though the `reproduce` call consuming the run's second draw block
would have advanced it to `[['T']]`. -/
theorem main_run_c1_populations :
    (main_run 2 1 1 1 3 u_const_zero c_cycle).population1 = [['C']] ∧
    (main_run 2 1 1 1 3 u_const_zero c_cycle).population2 = [['C']] := by
  have hpre : ((pre_split_iter 1 ((2 : ℕ) : ℚ) ((1 : ℕ) : ℚ) u_const_zero
      c_cycle)^[1] (initState 2 1)).new_generation_sequence = [['C'], ['C']] := by
    rw [Function.iterate_one]
    decide
  unfold main_run
  rw [if_pos (by norm_num : (1 : ℕ) < 3)]
  dsimp only
  constructor
  · rw [(post_split_iterate 1 ((2 : ℕ) : ℚ) ((1 : ℕ) : ℚ) u_const_zero c_cycle
      _ (3 - 1)).1, hpre, split_populations_eq]
    decide
  · rw [(post_split_iterate 1 ((2 : ℕ) : ℚ) ((1 : ℕ) : ℚ) u_const_zero c_cycle
      _ (3 - 1)).2.1, hpre, split_populations_eq]
    decide

theorem post_split_populations_frozen :
    (∀ (mutation_rate Nq Lq : ℚ) (R : ℕ → ℕ → ℕ → ℚ)
      (C : ℕ → ℕ → ℕ → Fin 3) (s : SplitState),
      (post_split_iter mutation_rate Nq Lq R C s).population1 = s.population1 ∧
      (post_split_iter mutation_rate Nq Lq R C s).population2 = s.population2) ∧
    (main_run 2 1 1 1 3 u_const_zero c_cycle).population1 = [['C']] ∧
    (main_run 2 1 1 1 3 u_const_zero c_cycle).population2 = [['C']] ∧
    reproduce 1 [['C']] (u_const_zero 1) (c_cycle 1) = [['T']] ∧
    ([['T']] : List (List Char)) ≠ [['C']] :=
  ⟨fun _ _ _ _ _ _ => ⟨rfl, rfl⟩, main_run_c1_populations.1,
    main_run_c1_populations.2, by decide, by decide⟩

/-! ### C7: how many lineage labels are reported per generation -/

theorem count_map_range_add (a t : ℕ) :
    ∀ n : ℕ, ((List.range n).map (fun j => a + j)).count t =
      if a ≤ t ∧ t < a + n then 1 else 0
  | 0 => by
    have h : ¬ (a ≤ t ∧ t < a) := by omega
    simp [h]
  | n + 1 => by
    rw [List.range_succ, List.map_append, List.count_append,
      count_map_range_add a t n]
    simp only [List.map_cons, List.map_nil, List.count_cons, List.count_nil,
      beq_iff_eq]
    split_ifs <;> omega

theorem count_flatMap_pair (a t : ℕ) :
    ∀ n : ℕ, ((List.range n).flatMap (fun j => [a + j, a + j])).count t =
      if a ≤ t ∧ t < a + n then 2 else 0
  | 0 => by
    have h : ¬ (a ≤ t ∧ t < a) := by omega
    simp [h]
  | n + 1 => by
    rw [List.range_succ, List.flatMap_append, List.count_append,
      count_flatMap_pair a t n]
    have h2 : ([n].flatMap (fun j => [a + j, a + j])).count t =
        if t = a + n then 2 else 0 := by
      simp only [List.flatMap_cons, List.flatMap_nil, List.append_nil,
        List.count_cons, List.count_nil, beq_iff_eq]
      split_ifs <;> omega
    rw [h2]
    split_ifs <;> omega

/-- Claim C7 (counterexample): with g = 1 and G = 2, the claim predicts two
lineage labels for generation g = 1, but the run reports generation 1
once (and generation 2 twice): the recorded generation numbers are
`[1, 2, 2]`. -/
theorem main_labels_counterexample :
    (main_run 1 1 0 1 2 u_const_zero c_cycle).generations = [1, 2, 2] ∧
    ¬ ((main_run 1 1 0 1 2 u_const_zero c_cycle).generations.count 1 = 2) := by
  constructor <;> decide

/-- Claim C7 (amended): when g ≥ G no split occurs and every generation
1..G is reported exactly once; when g < G each generation 1..g is
reported exactly once and each generation g+1..G exactly twice (the
post-split loop runs generations g+1..G, recording each once per
lineage), not 1..g−1 and g..G−1 as the claim stated. -/
theorem main_lineage_label_counts (N L : ℕ) (μ : ℚ) (g G : ℕ)
    (R : ℕ → ℕ → ℕ → ℚ) (C : ℕ → ℕ → ℕ → Fin 3) :
    (G ≤ g → ∀ t : ℕ, (main_run N L μ g G R C).generations.count t =
        if 1 ≤ t ∧ t ≤ G then 1 else 0) ∧
    (g < G → ∀ t : ℕ, (main_run N L μ g G R C).generations.count t =
        if 1 ≤ t ∧ t ≤ g then 1
        else if g + 1 ≤ t ∧ t ≤ G then 2 else 0) := by
  constructor
  · intro hGg t
    unfold main_run
    rw [if_neg (not_lt.mpr hGg)]
    dsimp only
    rw [(pre_split_iterate μ (N : ℚ) (L : ℚ) R C (initState N L) G).2.1]
    dsimp only [initState]
    rw [List.nil_append, count_map_range_add]
    exact if_congr (by omega) rfl rfl
  · intro hgG t
    unfold main_run
    rw [if_pos hgG]
    dsimp only
    rw [(post_split_iterate μ (N : ℚ) (L : ℚ) R C _ (G - g)).2.2.2.1]
    dsimp only
    rw [(pre_split_iterate μ (N : ℚ) (L : ℚ) R C (initState N L) g).2.1,
      (pre_split_iterate μ (N : ℚ) (L : ℚ) R C (initState N L) g).1]
    dsimp only [initState]
    rw [List.nil_append, List.count_append, count_map_range_add,
      count_flatMap_pair]
    split_ifs <;> omega

/-- Witness for C7: in the run with g = 1 < G = 2, generation 2 is
reported twice. -/
theorem main_lineage_label_counts_witness :
    (main_run 1 1 0 1 2 u_const_zero c_cycle).generations.count 2 =
      if 1 ≤ 2 ∧ 2 ≤ 1 then 1 else if 1 + 1 ≤ 2 ∧ 2 ≤ 2 then 2 else 0 :=
  (main_lineage_label_counts 1 1 0 1 2 u_const_zero c_cycle).2 (by decide) 2

/-! ### C9: the divisor of the post-split averages -/

theorem pre_split_iter_seq_lengths (mutation_rate Nq Lq : ℚ)
    (R : ℕ → ℕ → ℕ → ℚ) (C : ℕ → ℕ → ℕ → Fin 3) (s : SimState) (L : ℕ)
    (h : ∀ x ∈ s.new_generation_sequence, x.length = L) :
    ∀ n : ℕ, ∀ x ∈ ((pre_split_iter mutation_rate Nq Lq R C)^[n]
      s).new_generation_sequence, x.length = L := by
  intro n
  induction n with
  | zero => exact h
  | succ m ih =>
    rw [Function.iterate_succ_apply']
    exact reproduce_lengths _ _ _ _ _ ih

theorem pre_split_iter_pop_length (mutation_rate Nq Lq : ℚ)
    (R : ℕ → ℕ → ℕ → ℚ) (C : ℕ → ℕ → ℕ → Fin 3) (s : SimState) :
    ∀ n : ℕ, ((pre_split_iter mutation_rate Nq Lq R C)^[n]
      s).new_generation_sequence.length = s.new_generation_sequence.length := by
  intro n
  induction n with
  | zero => rfl
  | succ m ih =>
    rw [Function.iterate_succ_apply']
    show (reproduce mutation_rate _ _ _).length = _
    rw [reproduce_length, ih]

/-- Claim C9: in a run where the split occurs, every post-split recorded
average distance is the corresponding lineage's pairwise-distance sum
divided by `N / 2` — half the original pre-split population size, taken
with float (here rational) division, hence fractional for odd `N` —
and then by `L`.  The lineages' own sizes are `⌈N/2⌉ = (N+1)/2` and
`⌊N/2⌋`, and for odd `N` the divisor `N / 2` equals neither. -/
theorem main_post_split_divisor (N L : ℕ) (μ : ℚ) (g G : ℕ)
    (R : ℕ → ℕ → ℕ → ℚ) (C : ℕ → ℕ → ℕ → Fin 3) (hgG : g < G) :
    (main_run N L μ g G R C).avg_genetic_distances.drop g =
      (List.range (G - g)).flatMap (fun _ =>
        [Except.ok (((spec_pair_sum (main_run N L μ g G R C).population1 : ℚ) /
            ((N : ℚ) / 2)) / (L : ℚ)),
         Except.ok (((spec_pair_sum (main_run N L μ g G R C).population2 : ℚ) /
            ((N : ℚ) / 2)) / (L : ℚ))]) ∧
    (main_run N L μ g G R C).population1.length = (N + 1) / 2 ∧
    (main_run N L μ g G R C).population2.length = N / 2 ∧
    (Odd N → ((N : ℚ) / 2 ≠ (((N + 1) / 2 : ℕ) : ℚ) ∧
      (N : ℚ) / 2 ≠ ((N / 2 : ℕ) : ℚ))) := by
  have hseqL : ∀ x ∈ ((pre_split_iter μ (N : ℚ) (L : ℚ) R C)^[g]
      (initState N L)).new_generation_sequence, x.length = L := by
    apply pre_split_iter_seq_lengths
    exact init_original_sequence_lengths N L
  have hseqN : ((pre_split_iter μ (N : ℚ) (L : ℚ) R C)^[g]
      (initState N L)).new_generation_sequence.length = N := by
    rw [pre_split_iter_pop_length]
    simp [initState, init_original_sequence]
  have havgl : ((pre_split_iter μ (N : ℚ) (L : ℚ) R C)^[g]
      (initState N L)).avg_genetic_distances.length = g := by
    rw [(pre_split_iterate μ (N : ℚ) (L : ℚ) R C (initState N L) g).2.2]
    simp [initState]
  have hP1L : ∀ x ∈ (split_populations ((pre_split_iter μ (N : ℚ) (L : ℚ) R
      C)^[g] (initState N L)).new_generation_sequence N).1, x.length = L := by
    rw [split_populations_eq]
    exact fun x hx => hseqL x (List.take_subset _ _ hx)
  have hP2L : ∀ x ∈ (split_populations ((pre_split_iter μ (N : ℚ) (L : ℚ) R
      C)^[g] (initState N L)).new_generation_sequence N).2, x.length = L := by
    rw [split_populations_eq]
    exact fun x hx => hseqL x (List.drop_subset _ _ hx)
  unfold main_run
  rw [if_pos hgG]
  dsimp only
  rw [(post_split_iterate μ (N : ℚ) (L : ℚ) R C _ (G - g)).1,
    (post_split_iterate μ (N : ℚ) (L : ℚ) R C _ (G - g)).2.1,
    (post_split_iterate μ (N : ℚ) (L : ℚ) R C _ (G - g)).2.2.2.2]
  dsimp only
  refine ⟨?_, ?_, ?_, ?_⟩
  · rw [List.drop_left' havgl]
    simp only [genetic_distance_ok _ L hP1L, genetic_distance_ok _ L hP2L]
  · rw [split_populations_eq, List.length_take, hseqN]
    omega
  · rw [split_populations_eq, List.length_drop, hseqN]
    omega
  · rintro ⟨m, rfl⟩
    constructor
    · rw [show ((2 * m + 1 + 1) / 2 : ℕ) = m + 1 by omega]
      push_cast
      intro h
      rw [div_eq_iff (by norm_num : (2 : ℚ) ≠ 0)] at h
      linarith
    · rw [show ((2 * m + 1) / 2 : ℕ) = m by omega]
      push_cast
      intro h
      rw [div_eq_iff (by norm_num : (2 : ℚ) ≠ 0)] at h
      linarith

/-- Witness for C9: in the run N=1, L=1, g=1, G=2 the surviving first
lineage has `⌈1/2⌉ = 1` member. -/
theorem main_post_split_divisor_witness :
    (main_run 1 1 0 1 2 u_const_zero c_cycle).population1.length = (1 + 1) / 2 :=
  (main_post_split_divisor 1 1 0 1 2 u_const_zero c_cycle (by decide)).2.1

end GeneticDrift
